import Mathlib

/-!
# Verification of the connection-graph engine of `ConnectGame.tsx`

Shallow embedding of the game logic of `src/pages/ConnectGame.tsx`:
the adjacency helpers (`getConnections`, `areDirectlyConnected`), the
breadth-first search (`findShortestPath`), the revealed-subgraph
connectivity check (`isGraphConnected`), the puzzle pair selection of
`startNewGame`, and the guess state machine (`handleSearchWithName`),
together with correctness theorems about them.

The two `while` loops are embedded with an explicit fuel parameter that
strictly exceeds a termination measure of the loop; the specification
theorems below are proved for any sufficient fuel, so fuel exhaustion is
unreachable at the chosen bounds.
-/

namespace Kisser

/-- A row of the `connections` table as the game logic consumes it: only the
two endpoint names are ever read by the graph code (`id` and `status` are
not; the query pre-filters to `status = 'accepted'`). -/
structure Conn where
  name1 : String
  name2 : String
deriving DecidableEq, Repr

/-- An entry of `revealedConnections`: an object `{source, target}`. -/
structure Edge where
  source : String
  target : String
deriving DecidableEq, Repr

/-- JS `String.prototype.trim`, modelled structurally over the character
list (core `String.trim` strips the same ASCII whitespace but is opaque to
kernel reduction). -/
def jsTrim (s : String) : String :=
  ⟨((s.data.dropWhile Char.isWhitespace).reverse.dropWhile Char.isWhitespace).reverse⟩

/-- Source `getConnections`: all direct neighbours of `personName`, in the order of
the connection list (duplicates kept, as in the source). -/
def getConnections (connections : List Conn) (personName : String) : List String :=
  (connections.filter fun conn => conn.name1 == personName || conn.name2 == personName).map
    fun conn => if conn.name1 == personName then conn.name2 else conn.name1

/-- Source `areDirectlyConnected`: some connection joins the two names, in either
orientation. -/
def areDirectlyConnected (connections : List Conn) (person1 person2 : String) : Bool :=
  connections.any fun conn =>
    (conn.name1 == person1 && conn.name2 == person2) ||
    (conn.name1 == person2 && conn.name2 == person1)

/-- Adding one element to a JS `Set`, viewed as its insertion-order list. -/
def insertUnique (l : List String) (x : String) : List String :=
  if x ∈ l then l else l ++ [x]

/-- The `allPeople` set that `startNewGame` and `handleSearchWithName` build:
`connections.forEach(conn => { allPeople.add(conn.name1); allPeople.add(conn.name2); })`,
kept in JS `Set` insertion order. -/
def allPeopleList (connections : List Conn) : List String :=
  connections.foldl (fun acc conn => insertUnique (insertUnique acc conn.name1) conn.name2) []

/-- All endpoint occurrences of the connection list (duplicates kept); only
used to bound the BFS loops. -/
def peopleOf (connections : List Conn) : List String :=
  connections.flatMap fun conn => [conn.name1, conn.name2]

/-- The `while` loop of `findShortestPath`.  The queue holds
`{person, path}` records; a dequeued person already visited is skipped,
otherwise it is marked visited, the search returns `path ++ [target]` as soon
as `target` occurs among its connections, and all unvisited connections are
enqueued with their extended paths. -/
def bfsFuel (connections : List Conn) (target : String) :
    Nat → List String → List (String × List String) → Option (List String)
  | 0, _, _ => none
  | _ + 1, _, [] => none
  | fuel + 1, visited, (person, path) :: rest =>
    if visited.contains person then bfsFuel connections target fuel visited rest
    else if (getConnections connections person).contains target then some (path ++ [target])
    else
      bfsFuel connections target fuel (person :: visited)
        (rest ++ ((getConnections connections person).filter
            fun c => !((person :: visited).contains c)).map
          fun c => (c, path ++ [c]))

/-- Source `findShortestPath`: `[start]` if `start === target`, otherwise the BFS
loop started from `{person: start, path: [start]}` with empty visited set.
The fuel strictly exceeds the loop measure proved below. -/
def findShortestPath (connections : List Conn) (start target : String) : Option (List String) :=
  if start == target then some [start]
  else
    bfsFuel connections target
      ((peopleOf connections).length * (connections.length + 1) + 2) [] [(start, [start])]

/-- The pushes performed by one iteration of the `isGraphConnected` loop:
for each revealed connection, the counterpart of `current` is enqueued when
not yet visited (the source checks both orientations separately, with
`visited` already containing `current`). -/
def igcPush (revealedConnections : List Edge) (visited : List String) (current : String) :
    List String :=
  revealedConnections.flatMap fun conn =>
    (if conn.source == current && !(visited.contains conn.target) then [conn.target] else []) ++
    (if conn.target == current && !(visited.contains conn.source) then [conn.source] else [])

/-- The `while` loop of `isGraphConnected` (BFS over the supplied edge list
only; returns `true` when the dequeued person is the target). -/
def igcLoop (revealedConnections : List Edge) (targetPerson : String) :
    Nat → List String → List String → Bool
  | 0, _, _ => false
  | _ + 1, _, [] => false
  | fuel + 1, visited, current :: rest =>
    if visited.contains current then igcLoop revealedConnections targetPerson fuel visited rest
    else if current == targetPerson then true
    else
      igcLoop revealedConnections targetPerson fuel (current :: visited)
        (rest ++ igcPush revealedConnections (current :: visited) current)

/-- All endpoint occurrences of an edge list (duplicates kept); only used to
bound the `isGraphConnected` loop. -/
def peopleOfE (edges : List Edge) : List String :=
  edges.flatMap fun e => [e.source, e.target]

/-- Source `isGraphConnected(revealedConnections, startPerson, targetPerson)`:
`false` outright on an empty edge list, otherwise BFS from `startPerson`
restricted to the supplied edges. -/
def isGraphConnected (revealedConnections : List Edge) (startPerson targetPerson : String) :
    Bool :=
  if revealedConnections.length == 0 then false
  else
    igcLoop revealedConnections targetPerson
      ((peopleOfE revealedConnections).length * (2 * revealedConnections.length + 1) + 2)
      [] [startPerson]

/-- The edge list of the full graph in `revealedConnections` form
(`name1` as source, `name2` as target), used to state the spec's
`isConnected(edgesOf(g), a, b)` refinement claim. -/
def edgesOf (connections : List Conn) : List Edge :=
  connections.map fun conn => { source := conn.name1, target := conn.name2 }

/-- The game-session state, restricted to the fields the game logic reads or
writes (`timeStarted` only feeds the timer that maintains `timeElapsed`, so
only `timeElapsed` is kept; UI-only fields are omitted). -/
structure GameState where
  startPerson : String
  targetPerson : String
  revealedPeople : List String
  revealedConnections : List Edge
  gameStarted : Bool
  gameWon : Bool
  gameLost : Bool
  attempts : Nat
  maxAttempts : Nat
  timeElapsed : Nat
  score : Int
deriving DecidableEq, Repr

/-- The state update shared by the person-not-found and the
no-link-to-revealed branches of `handleSearchWithName`: record the new
attempt count and set `gameLost` when it reaches `maxAttempts`. -/
def penaltyUpdate (state : GameState) : GameState :=
  if state.attempts + 1 ≥ state.maxAttempts then
    { state with attempts := state.attempts + 1, gameLost := true }
  else
    { state with attempts := state.attempts + 1 }

/-- The reveal branch of `handleSearchWithName`: add `searchName`, add one
`{source: searchName, target: p}` edge for every already revealed `p`
directly connected to it, count the attempt, then either win (with the score
of the source's win branch), lose on exhausted attempts, or continue. -/
def newConnectionsFor (connections : List Conn) (state : GameState)
    (searchName : String) : List Edge :=
  (state.revealedPeople.filter fun revealedPerson =>
      areDirectlyConnected connections searchName revealedPerson).map
    fun revealedPerson => { source := searchName, target := revealedPerson : Edge }

def revealUpdate (connections : List Conn) (state : GameState) (searchName : String) :
    GameState :=
  if isGraphConnected (state.revealedConnections ++ newConnectionsFor connections state searchName)
      state.startPerson state.targetPerson then
    { state with
      revealedPeople := state.revealedPeople ++ [searchName]
      revealedConnections :=
        state.revealedConnections ++ newConnectionsFor connections state searchName
      attempts := state.attempts + 1
      gameWon := true
      score := 1000 + max 0 (300 - ((state.timeElapsed / 1000 : Nat) : Int)) +
        max 0 (((state.maxAttempts : Int) - ((state.attempts + 1 : Nat) : Int)) * 50) }
  else if state.attempts + 1 ≥ state.maxAttempts then
    { state with
      revealedPeople := state.revealedPeople ++ [searchName]
      revealedConnections :=
        state.revealedConnections ++ newConnectionsFor connections state searchName
      attempts := state.attempts + 1
      gameLost := true }
  else
    { state with
      revealedPeople := state.revealedPeople ++ [searchName]
      revealedConnections :=
        state.revealedConnections ++ newConnectionsFor connections state searchName
      attempts := state.attempts + 1 }

/-- Source `handleSearchWithName` as a pure state transition (UI-only effects
dropped): terminal or blank guesses change nothing; a name absent from the
graph or without a link to the revealed region takes the penalty update; an
already revealed name is a free no-op; otherwise the reveal branch runs. -/
def handleSearchWithName (connections : List Conn) (state : GameState)
    (nameToSearch : String) : GameState :=
  if jsTrim nameToSearch == "" || state.gameWon || state.gameLost then state
  else if !((allPeopleList connections).contains (jsTrim nameToSearch)) then
    penaltyUpdate state
  else if state.revealedPeople.contains (jsTrim nameToSearch) then state
  else if !(state.revealedPeople.any fun revealedPerson =>
      areDirectlyConnected connections (jsTrim nameToSearch) revealedPerson) then
    penaltyUpdate state
  else revealUpdate connections state (jsTrim nameToSearch)

/-- The fresh session state `startNewGame` installs for a chosen pair:
only start and target revealed, no connections, 0 of 100 attempts used. -/
def startState (startPerson targetPerson : String) : GameState :=
  { startPerson := startPerson
    targetPerson := targetPerson
    revealedPeople := insertUnique (insertUnique [] startPerson) targetPerson
    revealedConnections := []
    gameStarted := true
    gameWon := false
    gameLost := false
    attempts := 0
    maxAttempts := 100
    timeElapsed := 0
    score := 0 }

/-- The sampling loop of `startNewGame`.  `rand i` supplies the two array
indices drawn on iteration `i` (the source draws
`Math.floor(Math.random() * peopleArray.length)` twice); a pair is accepted
when distinct, not directly connected, and with a shortest path of length
3 to 6; otherwise the budget shrinks and the loop retries. -/
def selectPairLoop (connections : List Conn) (peopleArray : List String)
    (rand : Nat → Nat × Nat) : Nat → Nat → Option (String × String)
  | 0, _ => none
  | budget + 1, i =>
    if peopleArray.getD (rand i).1 "" != peopleArray.getD (rand i).2 "" &&
        !(areDirectlyConnected connections (peopleArray.getD (rand i).1 "")
          (peopleArray.getD (rand i).2 "")) then
      match findShortestPath connections (peopleArray.getD (rand i).1 "")
          (peopleArray.getD (rand i).2 "") with
      | some path =>
        if 3 ≤ path.length ∧ path.length ≤ 6 then
          some (peopleArray.getD (rand i).1 "", peopleArray.getD (rand i).2 "")
        else selectPairLoop connections peopleArray rand budget (i + 1)
      | none => selectPairLoop connections peopleArray rand budget (i + 1)
    else selectPairLoop connections peopleArray rand budget (i + 1)

/-- The pair selection of `startNewGame`: run the sampling loop with budget
100; if it leaves `startPerson`/`targetPerson` falsy (unset, or an empty
name), fall back to the first two entries of the people array when at least
two exist, and fail (`alert` and return) otherwise. -/
def startNewGamePair (connections : List Conn) (rand : Nat → Nat × Nat) :
    Option (String × String) :=
  let peopleArray := allPeopleList connections
  let found :=
    if 2 ≤ peopleArray.length then selectPairLoop connections peopleArray rand 100 0 else none
  let startPerson := (found.map Prod.fst).getD ""
  let targetPerson := (found.map Prod.snd).getD ""
  if startPerson = "" ∨ targetPerson = "" then
    if 2 ≤ peopleArray.length then some (peopleArray.getD 0 "", peopleArray.getD 1 "")
    else none
  else some (startPerson, targetPerson)

/-- The §4.5 scoring function, written from the spec's words
(`computeScore(elapsedMs, attemptsUsed, maxAttempts)`); the source computes
this inline in the win branch of `handleSearchWithName`. -/
def computeScore (elapsedMs attemptsUsed maxAttempts : Nat) : Int :=
  1000 + max 0 (300 - ((elapsedMs / 1000 : Nat) : Int)) +
    max 0 (((maxAttempts : Int) - (attemptsUsed : Int)) * 50)

/-- Game sessions reachable from a freshly started game: the initial state
for a start/target pair drawn from the graph's people (as both the sampling
loop and the fallback guarantee), followed by any sequence of guesses and
timer ticks (the interval updates `timeElapsed` while the game is in
progress). -/
inductive Reachable (connections : List Conn) : GameState → Prop where
  | init (s t : String) (hs : s ∈ allPeopleList connections)
      (ht : t ∈ allPeopleList connections) (hst : s ≠ t) :
      Reachable connections (startState s t)
  | guess {st : GameState} (name : String) (h : Reachable connections st) :
      Reachable connections (handleSearchWithName connections st name)
  | tick {st : GameState} (t : Nat) (h : Reachable connections st)
      (hw : st.gameWon = false) (hl : st.gameLost = false) :
      Reachable connections { st with timeElapsed := t }

/-! ## Basic lemmas about the adjacency helpers -/

theorem contains_iff_mem (l : List String) (a : String) : l.contains a = true ↔ a ∈ l := by
  simp

theorem eq_false_of_not_eq_true {b : Bool} (h : ¬b = true) : b = false := by
  rcases b with _ | _
  · rfl
  · exact absurd rfl h

theorem mem_insertUnique (l : List String) (x a : String) :
    a ∈ insertUnique l x ↔ a ∈ l ∨ a = x := by
  unfold insertUnique
  by_cases h : x ∈ l
  · simp only [if_pos h, List.mem_append]
    constructor
    · exact fun ha => Or.inl ha
    · rintro (ha | rfl) <;> [exact ha; exact h]
  · simp [if_neg h, or_comm]

theorem mem_allPeopleList (connections : List Conn) (a : String) :
    a ∈ allPeopleList connections ↔ ∃ c ∈ connections, c.name1 = a ∨ c.name2 = a := by
  unfold allPeopleList
  suffices h : ∀ (l : List Conn) (acc : List String),
      a ∈ l.foldl (fun acc conn => insertUnique (insertUnique acc conn.name1) conn.name2) acc ↔
        a ∈ acc ∨ ∃ c ∈ l, c.name1 = a ∨ c.name2 = a by
    simpa using h connections []
  intro l
  induction l with
  | nil => simp
  | cons c cs ih =>
    intro acc
    simp only [List.foldl_cons, ih, mem_insertUnique, List.mem_cons]
    constructor
    · rintro (((ha | h1) | h2) | ⟨d, hd, hda⟩)
      · exact Or.inl ha
      · exact Or.inr ⟨c, Or.inl rfl, Or.inl h1.symm⟩
      · exact Or.inr ⟨c, Or.inl rfl, Or.inr h2.symm⟩
      · exact Or.inr ⟨d, Or.inr hd, hda⟩
    · rintro (ha | ⟨d, hd | hd, hda⟩)
      · exact Or.inl (Or.inl (Or.inl ha))
      · subst hd
        rcases hda with h1 | h2
        · exact Or.inl (Or.inl (Or.inr h1.symm))
        · exact Or.inl (Or.inr h2.symm)
      · exact Or.inr ⟨d, hd, hda⟩

theorem mem_peopleOf (connections : List Conn) (a : String) :
    a ∈ peopleOf connections ↔ ∃ c ∈ connections, c.name1 = a ∨ c.name2 = a := by
  unfold peopleOf
  simp only [List.mem_flatMap, List.mem_cons, List.not_mem_nil, or_false]
  constructor
  · rintro ⟨c, hc, rfl | rfl⟩
    · exact ⟨c, hc, Or.inl rfl⟩
    · exact ⟨c, hc, Or.inr rfl⟩
  · rintro ⟨c, hc, rfl | rfl⟩
    · exact ⟨c, hc, Or.inl rfl⟩
    · exact ⟨c, hc, Or.inr rfl⟩

theorem areDirectlyConnected_iff (connections : List Conn) (a b : String) :
    areDirectlyConnected connections a b = true ↔
      ∃ c ∈ connections, (c.name1 = a ∧ c.name2 = b) ∨ (c.name1 = b ∧ c.name2 = a) := by
  unfold areDirectlyConnected
  simp [List.any_eq_true]

theorem areDirectlyConnected_symm (connections : List Conn) (a b : String) :
    areDirectlyConnected connections a b = areDirectlyConnected connections b a := by
  rcases h : areDirectlyConnected connections b a
  · rcases h' : areDirectlyConnected connections a b
    · rfl
    · exfalso
      rw [areDirectlyConnected_iff] at h'
      obtain ⟨c, hc, hor⟩ := h'
      have : areDirectlyConnected connections b a = true := by
        rw [areDirectlyConnected_iff]
        exact ⟨c, hc, hor.symm⟩
      simp [h] at this
  · rw [areDirectlyConnected_iff] at h ⊢
    obtain ⟨c, hc, hor⟩ := h
    exact ⟨c, hc, hor.symm⟩

theorem mem_getConnections (connections : List Conn) (a b : String) :
    b ∈ getConnections connections a ↔ areDirectlyConnected connections a b = true := by
  unfold getConnections
  rw [areDirectlyConnected_iff]
  simp only [List.mem_map, List.mem_filter, Bool.or_eq_true]
  constructor
  · rintro ⟨c, ⟨hc, hcase⟩, hb⟩
    rcases hbeq : (c.name1 == a) with _ | _
    · rw [if_neg (by simp [hbeq])] at hb
      rcases hcase with h1 | h2
      · exact absurd (beq_iff_eq.mp h1) (by simpa using hbeq)
      · exact ⟨c, hc, Or.inr ⟨hb, beq_iff_eq.mp h2⟩⟩
    · rw [if_pos hbeq] at hb
      exact ⟨c, hc, Or.inl ⟨beq_iff_eq.mp hbeq, hb⟩⟩
  · rintro ⟨c, hc, ⟨h1, h2⟩ | ⟨h1, h2⟩⟩
    · refine ⟨c, ⟨hc, Or.inl (beq_iff_eq.mpr h1)⟩, ?_⟩
      rw [if_pos (beq_iff_eq.mpr h1), h2]
    · by_cases hca : c.name1 = a
      · refine ⟨c, ⟨hc, Or.inl (beq_iff_eq.mpr hca)⟩, ?_⟩
        rw [if_pos (beq_iff_eq.mpr hca), h2, ← hca, h1]
      · refine ⟨c, ⟨hc, Or.inr (beq_iff_eq.mpr h2)⟩, ?_⟩
        rw [if_neg (by simpa using hca), h1]

theorem getConnections_eq_nil (connections : List Conn) (a : String)
    (ha : a ∉ peopleOf connections) : getConnections connections a = [] := by
  unfold getConnections
  rw [List.map_eq_nil_iff, List.filter_eq_nil_iff]
  intro c hc
  simp only [Bool.or_eq_true, beq_iff_eq, not_or]
  constructor <;> intro h <;> exact ha ((mem_peopleOf connections a).2 ⟨c, hc, by simp [h]⟩)

/-! ## Paths -/

/-- A walk along a relation `R`: nonempty, starting at `s`, ending at `t`,
with consecutive elements related. -/
def PathOn (R : String → String → Prop) (s t : String) (p : List String) : Prop :=
  p.head? = some s ∧ p.getLast? = some t ∧ p.Chain' R

/-- Adjacency in the full graph. -/
def Adj (connections : List Conn) (a b : String) : Prop :=
  areDirectlyConnected connections a b = true

/-- A path in the full graph from `s` to `t`: what the C1 claim calls a
sequence of names beginning at `start`, ending at `target`, with consecutive
elements directly connected. -/
def IsPath (connections : List Conn) (s t : String) (p : List String) : Prop :=
  PathOn (Adj connections) s t p

/-- Adjacency induced by an explicit edge list, in either orientation (the
relation the `isGraphConnected` loop walks). -/
def AdjE (edges : List Edge) (a b : String) : Prop :=
  (edges.any fun e => (e.source == a && e.target == b) || (e.source == b && e.target == a)) =
    true

/-- A path restricted to an explicit edge list. -/
def IsPathE (edges : List Edge) (s t : String) (p : List String) : Prop :=
  PathOn (AdjE edges) s t p

theorem pathOn_single (R : String → String → Prop) (s : String) : PathOn R s s [s] := by
  refine ⟨rfl, rfl, ?_⟩
  simp

theorem pathOn_nonempty {R s t p} (h : PathOn R s t p) : p ≠ [] := by
  rintro rfl
  exact Option.noConfusion h.1

theorem pathOn_length_pos {R s t p} (h : PathOn R s t p) : 1 ≤ p.length := by
  have := pathOn_nonempty h
  cases p with
  | nil => exact absurd rfl this
  | cons a l => simp

theorem pathOn_snoc {R : String → String → Prop} {s u v : String} {p : List String}
    (h : PathOn R s u p) (huv : R u v) : PathOn R s v (p ++ [v]) := by
  obtain ⟨h1, h2, h3⟩ := h
  refine ⟨?_, List.getLast?_concat p, ?_⟩
  · cases p with
    | nil => exact Option.noConfusion h1
    | cons a l => simpa using h1
  · rw [List.chain'_append]
    refine ⟨h3, by simp, ?_⟩
    intro x hx y hy
    simp only [List.head?_cons, Option.mem_def, Option.some.injEq] at hy
    rw [h2] at hx
    simp only [Option.mem_def, Option.some.injEq] at hx
    subst hx
    subst hy
    exact huv

theorem pathOn_getD_zero {R s t p} (h : PathOn R s t p) : p.getD 0 "" = s := by
  cases p with
  | nil => exact Option.noConfusion h.1
  | cons a l =>
    have := h.1
    simp only [List.head?_cons, Option.some.injEq] at this
    simpa using this

theorem pathOn_getD_last {R s t p} (h : PathOn R s t p) : p.getD (p.length - 1) "" = t := by
  have h2 := h.2.1
  rw [List.getLast?_eq_getElem?] at h2
  rw [List.getD_eq_getElem?_getD, h2]
  rfl

theorem chain'_getD {R : String → String → Prop} {p : List String} (h : p.Chain' R)
    (i : Nat) (hi : i + 1 < p.length) : R (p.getD i "") (p.getD (i + 1) "") := by
  rw [List.chain'_iff_get] at h
  have hlt : i < p.length - 1 := by omega
  have := h i hlt
  rw [List.getD_eq_getElem?_getD, List.getD_eq_getElem?_getD,
    List.getElem?_eq_getElem (by omega : i < p.length),
    List.getElem?_eq_getElem hi]
  simpa [List.get_eq_getElem] using this

theorem pathOn_two_le {R s t p} (h : PathOn R s t p) (hst : s ≠ t) : 2 ≤ p.length := by
  match p, h with
  | [a], ⟨h1, h2, _⟩ =>
    exfalso
    simp only [List.head?_cons, Option.some.injEq] at h1
    simp only [List.getLast?_singleton, Option.some.injEq] at h2
    exact hst (h1.symm.trans h2)
  | a :: b :: l, _ => simp
  | [], h => exact absurd rfl (pathOn_nonempty h)

theorem pathOn_exists_rel {R s t p} (h : PathOn R s t p) (hst : s ≠ t) : ∃ a b, R a b := by
  have h2 := pathOn_two_le h hst
  match p, h, h2 with
  | a :: b :: l, h, _ =>
    have := h.2.2
    rw [List.chain'_cons] at this
    exact ⟨a, b, this.1⟩

/-! ## Termination measure of the `findShortestPath` loop -/

/-- People of the graph not yet visited (counted with multiplicity). -/
def freshCount (connections : List Conn) (visited : List String) : Nat :=
  ((peopleOf connections).filter fun x => !(visited.contains x)).length

/-- Strictly decreasing measure of the BFS loop: each iteration either
dequeues without pushing, or visits a fresh person and pushes at most
`connections.length` entries. -/
def bfsMeasure (connections : List Conn) (visited : List String)
    (queue : List (String × List String)) : Nat :=
  freshCount connections visited * (connections.length + 1) + queue.length

theorem filter_not_contains_le (l visited : List String) (u : String) :
    ((l.filter fun x => !((u :: visited).contains x)).length ≤
      (l.filter fun x => !(visited.contains x)).length) := by
  apply List.Sublist.length_le
  apply List.monotone_filter_right
  intro a ha
  simp only [Bool.not_eq_true', ← Bool.not_eq_true] at ha ⊢
  intro hmem
  exact ha (by
    rw [contains_iff_mem] at hmem ⊢
    exact List.mem_cons_of_mem u hmem)

theorem filter_not_contains_lt (l visited : List String) (u : String)
    (hu : u ∈ l) (hv : u ∉ visited) :
    ((l.filter fun x => !((u :: visited).contains x)).length <
      (l.filter fun x => !(visited.contains x)).length) := by
  induction l with
  | nil => exact absurd hu (List.not_mem_nil u)
  | cons a l ih =>
    by_cases hau : a = u
    · subst hau
      have h1 : (!((a :: visited).contains a)) = false := by
        simp [contains_iff_mem]
      have h2 : (!(visited.contains a)) = true := by
        simp only [Bool.not_eq_true']
        rw [← Bool.not_eq_true]
        intro hc
        exact hv (by rwa [contains_iff_mem] at hc)
      rw [List.filter_cons, List.filter_cons, h1, h2]
      simp only [List.length_cons]
      exact Nat.lt_succ_of_le (filter_not_contains_le l visited a)
    · have hu' : u ∈ l := by
        rcases List.mem_cons.mp hu with h | h
        · exact absurd h.symm hau
        · exact h
      have hpred : (!((u :: visited).contains a)) = (!(visited.contains a)) := by
        by_cases hav : a ∈ visited
        · simp [contains_iff_mem, hav]
        · have : a ∉ u :: visited := by
            intro hc
            rcases List.mem_cons.mp hc with h | h
            · exact hau h
            · exact hav h
          simp [contains_iff_mem, hav, this]
      rw [List.filter_cons, List.filter_cons, hpred]
      rcases (!(visited.contains a)) with _ | _
      · exact ih hu'
      · simpa using Nat.succ_lt_succ (ih hu')

theorem freshCount_cons_le (connections : List Conn) (visited : List String) (u : String) :
    freshCount connections (u :: visited) ≤ freshCount connections visited :=
  filter_not_contains_le (peopleOf connections) visited u

theorem freshCount_cons_lt (connections : List Conn) (visited : List String) (u : String)
    (hu : u ∈ peopleOf connections) (hv : u ∉ visited) :
    freshCount connections (u :: visited) < freshCount connections visited :=
  filter_not_contains_lt (peopleOf connections) visited u hu hv

theorem getConnections_length_le (connections : List Conn) (a : String) :
    (getConnections connections a).length ≤ connections.length := by
  unfold getConnections
  rw [List.length_map]
  exact List.length_filter_le _ _

theorem measure_arith_fresh {a b kk rest pushed f : Nat}
    (h2 : a + kk ≤ b) (hp : pushed + 1 ≤ kk) (hm : b + (rest + 1) < f + 1) :
    a + (rest + pushed) < f := by omega

theorem measure_arith_stale {a b rest f : Nat}
    (h2 : a ≤ b) (hm : b + (rest + 1) < f + 1) : a + rest < f := by omega

/-! ## The two-level shape of the BFS queue -/

/-- The BFS queue always consists of a block of paths of some length `n`
followed by a block of paths of length `n + 1`; in particular the head path
is shortest in the queue. -/
def TwoBlock (queue : List (String × List String)) : Prop :=
  ∃ n q1 q2, queue = q1 ++ q2 ∧ (∀ e ∈ q1, e.2.length = n) ∧ (∀ e ∈ q2, e.2.length = n + 1)

theorem twoBlock_nil : TwoBlock [] :=
  ⟨0, [], [], rfl, by simp, by simp⟩

theorem twoBlock_singleton (e : String × List String) : TwoBlock [e] :=
  ⟨e.2.length, [e], [], rfl, by simp, by simp⟩

theorem twoBlock_head_le {u : String} {pu : List String}
    {rest : List (String × List String)} (h : TwoBlock ((u, pu) :: rest)) :
    ∀ e ∈ (u, pu) :: rest, pu.length ≤ e.2.length := by
  obtain ⟨n, q1, q2, heq, h1, h2⟩ := h
  intro e he
  cases q1 with
  | nil =>
    simp only [List.nil_append] at heq
    have hall : ∀ x ∈ (u, pu) :: rest, x.2.length = n + 1 := heq ▸ h2
    have hpu : pu.length = n + 1 := hall (u, pu) (List.mem_cons_self _ _)
    rw [hpu, hall e he]
  | cons a q1t =>
    simp only [List.cons_append, List.cons.injEq] at heq
    obtain ⟨ha, hrest⟩ := heq
    have hpu : pu.length = n := by
      have := h1 a (List.mem_cons_self _ _)
      rw [← ha] at this
      exact this
    rcases List.mem_cons.mp he with rfl | he'
    · exact le_of_eq rfl
    · rw [hpu, hrest] at *
      rcases List.mem_append.mp he' with h | h
      · rw [h1 e (List.mem_cons_of_mem a h)]
      · rw [h2 e h]
        omega

theorem twoBlock_tail {e : String × List String} {rest : List (String × List String)}
    (h : TwoBlock (e :: rest)) : TwoBlock rest := by
  obtain ⟨n, q1, q2, heq, h1, h2⟩ := h
  cases q1 with
  | nil =>
    simp only [List.nil_append] at heq
    refine ⟨n, [], rest, by simp, by simp, ?_⟩
    intro x hx
    exact (heq ▸ h2) x (List.mem_cons_of_mem e hx)
  | cons a q1t =>
    simp only [List.cons_append, List.cons.injEq] at heq
    exact ⟨n, q1t, q2, heq.2, fun x hx => h1 x (List.mem_cons_of_mem a hx), h2⟩

theorem twoBlock_step {u : String} {pu : List String}
    {rest pushed : List (String × List String)} (h : TwoBlock ((u, pu) :: rest))
    (hp : ∀ e ∈ pushed, e.2.length = pu.length + 1) : TwoBlock (rest ++ pushed) := by
  obtain ⟨n, q1, q2, heq, h1, h2⟩ := h
  cases q1 with
  | nil =>
    simp only [List.nil_append] at heq
    have hall : ∀ x ∈ (u, pu) :: rest, x.2.length = n + 1 := heq ▸ h2
    have hpu : pu.length = n + 1 := hall (u, pu) (List.mem_cons_self _ _)
    refine ⟨n + 1, rest, pushed, rfl, ?_, ?_⟩
    · intro x hx
      exact hall x (List.mem_cons_of_mem _ hx)
    · intro x hx
      rw [hp x hx, hpu]
  | cons a q1t =>
    simp only [List.cons_append, List.cons.injEq] at heq
    obtain ⟨ha, hrest⟩ := heq
    have hpu : pu.length = n := by
      have := h1 a (List.mem_cons_self _ _)
      rw [← ha] at this
      exact this
    refine ⟨n, q1t, q2 ++ pushed, by rw [hrest, List.append_assoc], ?_, ?_⟩
    · intro x hx
      exact h1 x (List.mem_cons_of_mem a hx)
    · intro x hx
      rcases List.mem_append.mp hx with h | h
      · exact h2 x h
      · rw [hp x h, hpu]

/-! ## The master specification of the `findShortestPath` loop -/

/-- An occurrence of `person` on the path `q` at or after position `j`. -/
@[reducible] def hitP (q : List String) (j : Nat) (person : String) (k : Nat) : Prop :=
  j ≤ k ∧ k < q.length ∧ q.getD k "" = person

instance (q : List String) (j : Nat) (person : String) : DecidablePred (hitP q j person) :=
  fun k => by unfold hitP; infer_instance

/-- The frontier invariant of the BFS loop: every path `q` from start to
target carries an index `j` holding a queue entry whose recorded path is at
most `j + 1` long, with the whole tail of `q` from `j` on unvisited. -/
def Frontier (visited : List String) (queue : List (String × List String))
    (q : List String) : Prop :=
  ∃ j, j < q.length ∧
    (∃ e ∈ queue, e.1 = q.getD j "" ∧ e.2.length ≤ j + 1) ∧
    (∀ k, j ≤ k → k < q.length → q.getD k "" ∉ visited)

theorem bfsFuel_spec (connections : List Conn) (start target : String) :
    ∀ fuel visited queue,
      bfsMeasure connections visited queue < fuel →
      (∀ e ∈ queue, IsPath connections start e.1 e.2) →
      TwoBlock queue →
      (∀ e ∈ queue, e.1 ≠ target) →
      (∀ q, IsPath connections start target q → Frontier visited queue q) →
      (bfsFuel connections target fuel visited queue = none →
        ∀ q, ¬ IsPath connections start target q) ∧
      (∀ p, bfsFuel connections target fuel visited queue = some p →
        IsPath connections start target p ∧
        ∀ q, IsPath connections start target q → p.length ≤ q.length) := by
  intro fuel
  induction fuel with
  | zero =>
    intro visited queue hm
    exact absurd hm (Nat.not_lt_zero _)
  | succ f ih =>
    intro visited queue hm hpaths htwo htq hfr
    cases queue with
    | nil =>
      constructor
      · intro _ q hq
        obtain ⟨j, hj, ⟨e, he, _, _⟩, _⟩ := hfr q hq
        exact absurd he (List.not_mem_nil e)
      · intro p hp
        exact Option.noConfusion hp
    | cons hd rest =>
      obtain ⟨person, path⟩ := hd
      have hstep : bfsFuel connections target (f + 1) visited ((person, path) :: rest) =
          if visited.contains person then bfsFuel connections target f visited rest
          else if (getConnections connections person).contains target then
            some (path ++ [target])
          else
            bfsFuel connections target f (person :: visited)
              (rest ++ ((getConnections connections person).filter
                  fun c => !((person :: visited).contains c)).map
                fun c => (c, path ++ [c])) := rfl
      by_cases hvp : visited.contains person = true
      · rw [hstep, if_pos hvp]
        apply ih
        · unfold bfsMeasure at hm ⊢
          simp only [List.length_cons] at hm
          omega
        · exact fun e he => hpaths e (List.mem_cons_of_mem _ he)
        · exact twoBlock_tail htwo
        · exact fun e he => htq e (List.mem_cons_of_mem _ he)
        · intro q hq
          obtain ⟨j, hj, ⟨e, he, he1, helen⟩, htail⟩ := hfr q hq
          refine ⟨j, hj, ⟨e, ?_, he1, helen⟩, htail⟩
          rcases List.mem_cons.mp he with rfl | hrest
          · exfalso
            have hnv : q.getD j "" ∉ visited := htail j (le_refl j) hj
            rw [← he1] at hnv
            exact hnv ((contains_iff_mem visited person).mp hvp)
          · exact hrest
      · have hpv : person ∉ visited := fun h =>
          hvp ((contains_iff_mem visited person).mpr h)
        by_cases hct : (getConnections connections person).contains target = true
        · rw [hstep, if_neg hvp, if_pos hct]
          have hadj : Adj connections person target :=
            (mem_getConnections connections person target).mp ((contains_iff_mem _ _).mp hct)
          have hpp : IsPath connections start person path :=
            hpaths (person, path) (List.mem_cons_self _ _)
          have hres : IsPath connections start target (path ++ [target]) :=
            pathOn_snoc hpp hadj
          constructor
          · intro h
            exact Option.noConfusion h
          · intro p hp
            have hpeq : p = path ++ [target] := (Option.some.inj hp).symm
            subst hpeq
            refine ⟨hres, ?_⟩
            intro q hq
            obtain ⟨j, hj, ⟨e, he, he1, helen⟩, htail⟩ := hfr q hq
            have hmin : path.length ≤ e.2.length := twoBlock_head_le htwo e he
            have hlast : q.getD (q.length - 1) "" = target := pathOn_getD_last hq
            have hjne : j ≠ q.length - 1 := by
              intro hjeq
              apply htq e he
              rw [he1, hjeq, hlast]
            have hq1 : 1 ≤ q.length := pathOn_length_pos hq
            simp only [List.length_append, List.length_singleton]
            omega
        · rw [hstep, if_neg hvp, if_neg hct]
          have hnt : target ∉ getConnections connections person := fun h =>
            hct ((contains_iff_mem _ _).mpr h)
          have hpperson : IsPath connections start person path :=
            hpaths (person, path) (List.mem_cons_self _ _)
          have hpersonnt : person ≠ target := htq (person, path) (List.mem_cons_self _ _)
          have hpushedmem : ∀ e ∈ ((getConnections connections person).filter
              fun c => !((person :: visited).contains c)).map (fun c => (c, path ++ [c])),
              e.1 ∈ getConnections connections person ∧ e.1 ∉ person :: visited ∧
                e.2 = path ++ [e.1] := by
            intro e he
            obtain ⟨c, hc, rfl⟩ := List.mem_map.mp he
            obtain ⟨hcg, hcb⟩ := List.mem_filter.mp hc
            refine ⟨hcg, ?_, rfl⟩
            intro hmem
            rw [Bool.not_eq_true', ← Bool.not_eq_true] at hcb
            exact hcb ((contains_iff_mem _ _).mpr hmem)
          have hmempushed : ∀ v, v ∈ getConnections connections person →
              v ∉ person :: visited →
              (v, path ++ [v]) ∈ ((getConnections connections person).filter
                fun c => !((person :: visited).contains c)).map (fun c => (c, path ++ [c])) := by
            intro v hv hnv
            apply List.mem_map.mpr
            refine ⟨v, List.mem_filter.mpr ⟨hv, ?_⟩, rfl⟩
            simp only [Bool.not_eq_true']
            rw [← Bool.not_eq_true]
            intro hc
            exact hnv ((contains_iff_mem _ _).mp hc)
          apply ih
          · show bfsMeasure connections (person :: visited)
              (rest ++ ((getConnections connections person).filter
                fun c => !((person :: visited).contains c)).map (fun c => (c, path ++ [c]))) < f
            unfold bfsMeasure at hm ⊢
            rw [List.length_append]
            simp only [List.length_cons] at hm
            have hplen : (((getConnections connections person).filter
                fun c => !((person :: visited).contains c)).map
                  (fun c => (c, path ++ [c]))).length ≤ connections.length := by
              rw [List.length_map]
              exact le_trans (List.length_filter_le _ _) (getConnections_length_le _ _)
            by_cases hppl : person ∈ peopleOf connections
            · have hlt := freshCount_cons_lt connections visited person hppl hpv
              have h2 : freshCount connections (person :: visited) * (connections.length + 1) +
                  (connections.length + 1) ≤
                    freshCount connections visited * (connections.length + 1) := by
                have hmul : (freshCount connections (person :: visited) + 1) *
                    (connections.length + 1) ≤
                      freshCount connections visited * (connections.length + 1) :=
                  Nat.mul_le_mul_right _ hlt
                rw [Nat.succ_mul] at hmul
                exact hmul
              exact measure_arith_fresh h2 (by omega) hm
            · have hempty : getConnections connections person = [] :=
                getConnections_eq_nil connections person hppl
              have hplen0 : (((getConnections connections person).filter
                  fun c => !((person :: visited).contains c)).map
                    (fun c => (c, path ++ [c]))).length = 0 := by
                rw [hempty]
                simp
              have h2 : freshCount connections (person :: visited) * (connections.length + 1) ≤
                  freshCount connections visited * (connections.length + 1) :=
                Nat.mul_le_mul_right _ (freshCount_cons_le connections visited person)
              rw [hplen0]
              have := measure_arith_stale h2 hm
              omega
          · intro e he
            rcases List.mem_append.mp he with h | h
            · exact hpaths e (List.mem_cons_of_mem _ h)
            · obtain ⟨hcg, _, h2⟩ := hpushedmem e h
              have hadj : Adj connections person e.1 := (mem_getConnections _ _ _).mp hcg
              have := pathOn_snoc hpperson hadj
              rw [← h2] at this
              exact this
          · apply twoBlock_step htwo
            intro e he
            obtain ⟨_, _, h2⟩ := hpushedmem e he
            rw [h2]
            simp
          · intro e he
            rcases List.mem_append.mp he with h | h
            · exact htq e (List.mem_cons_of_mem _ h)
            · obtain ⟨hcg, _, _⟩ := hpushedmem e h
              intro hc
              rw [hc] at hcg
              exact hnt hcg
          · intro q hq
            obtain ⟨j, hj, ⟨e, he, he1, helen⟩, htail⟩ := hfr q hq
            by_cases hex : ∃ k, hitP q j person k
            · obtain ⟨k1, hk1j, hk1lt, hk1eq⟩ := hex
              have hq1 : 1 ≤ q.length := pathOn_length_pos hq
              have hk1le : k1 ≤ q.length - 1 := by omega
              have hPk1 : hitP q j person k1 := ⟨hk1j, hk1lt, hk1eq⟩
              have hPk0 := Nat.findGreatest_spec hk1le hPk1
              obtain ⟨hjk0, hk0lt, hk0eq⟩ := hPk0
              have hmax : ∀ k, Nat.findGreatest (hitP q j person) (q.length - 1) < k →
                  k ≤ q.length - 1 → ¬ hitP q j person k :=
                fun k h1 h2 => Nat.findGreatest_is_greatest h1 h2
              have hlast : q.getD (q.length - 1) "" = target := pathOn_getD_last hq
              have hk0ne : Nat.findGreatest (hitP q j person) (q.length - 1) ≠
                  q.length - 1 := by
                intro h
                rw [h, hlast] at hk0eq
                exact hpersonnt hk0eq.symm
              have hk0lt1 : Nat.findGreatest (hitP q j person) (q.length - 1) + 1 <
                  q.length := by omega
              have hadjv : Adj connections person
                  (q.getD (Nat.findGreatest (hitP q j person) (q.length - 1) + 1) "") := by
                have hch := chain'_getD hq.2.2 _ hk0lt1
                rw [hk0eq] at hch
                exact hch
              have hvmem := (mem_getConnections _ _ _).mpr hadjv
              have hvnv : q.getD (Nat.findGreatest (hitP q j person) (q.length - 1) + 1) ""
                  ∉ visited :=
                htail _ (by omega) hk0lt1
              have hvne : q.getD (Nat.findGreatest (hitP q j person) (q.length - 1) + 1) ""
                  ≠ person := by
                intro h
                exact hmax _ (by omega) (by omega) ⟨by omega, hk0lt1, h⟩
              have hvnotin : q.getD (Nat.findGreatest (hitP q j person) (q.length - 1) + 1) ""
                  ∉ person :: visited := by
                intro h
                rcases List.mem_cons.mp h with h | h
                · exact hvne h
                · exact hvnv h
              have hentry := hmempushed _ hvmem hvnotin
              refine ⟨_, hk0lt1, ⟨_, List.mem_append.mpr (Or.inr hentry), rfl, ?_⟩, ?_⟩
              · have hmin : path.length ≤ e.2.length := twoBlock_head_le htwo e he
                simp only [List.length_append, List.length_singleton]
                omega
              · intro k hk hklt hmem
                rcases List.mem_cons.mp hmem with h | h
                · exact hmax k (by omega) (by omega) ⟨by omega, hklt, h⟩
                · exact htail k (by omega) hklt h
            · push_neg at hex
              have hene : e ∈ rest := by
                rcases List.mem_cons.mp he with rfl | h
                · exact absurd ⟨le_refl j, hj, he1.symm⟩ (hex j)
                · exact h
              refine ⟨j, hj, ⟨e, List.mem_append.mpr (Or.inl hene), he1, helen⟩, ?_⟩
              intro k hk hklt hmem
              rcases List.mem_cons.mp hmem with h | h
              · exact hex k ⟨hk, hklt, h⟩
              · exact htail k hk hklt h

theorem freshCount_nil (connections : List Conn) :
    freshCount connections [] = (peopleOf connections).length := by
  unfold freshCount
  simp

/-- Example graph `A — B — C — D` used for concrete witnesses. -/
def demoConns : List Conn := [⟨"A", "B"⟩, ⟨"B", "C"⟩, ⟨"C", "D"⟩]

/-- Full correctness of `findShortestPath` (helper shared by the claim
theorems): soundness, minimality, the `start = target` case, and the
characterisation of `none`. -/
theorem findShortestPath_correct (connections : List Conn) (start target : String) :
    (start = target → findShortestPath connections start target = some [start]) ∧
    (∀ p, findShortestPath connections start target = some p →
      IsPath connections start target p ∧
      ∀ q, IsPath connections start target q → p.length ≤ q.length) ∧
    (findShortestPath connections start target = none ↔
      ¬∃ q, IsPath connections start target q) := by
  by_cases hst : start = target
  · subst hst
    have heq : findShortestPath connections start start = some [start] := by
      unfold findShortestPath
      rw [if_pos (beq_self_eq_true start)]
    refine ⟨fun _ => heq, ?_, ?_⟩
    · intro p hp
      rw [heq] at hp
      have hpeq : p = [start] := (Option.some.inj hp).symm
      subst hpeq
      refine ⟨pathOn_single _ _, fun q hq => ?_⟩
      simpa using pathOn_length_pos hq
    · rw [heq]
      constructor
      · intro h
        exact Option.noConfusion h
      · intro h
        exact absurd ⟨[start], pathOn_single _ _⟩ h
  · have hbeq : (start == target) = false := beq_eq_false_iff_ne.mpr hst
    have heq : findShortestPath connections start target =
        bfsFuel connections target
          ((peopleOf connections).length * (connections.length + 1) + 2)
          [] [(start, [start])] := by
      unfold findShortestPath
      rw [if_neg (by simp [hbeq])]
    have hmeas : bfsMeasure connections [] [(start, [start])] <
        (peopleOf connections).length * (connections.length + 1) + 2 := by
      unfold bfsMeasure
      rw [freshCount_nil]
      simp
    have hmaster := bfsFuel_spec connections start target
      ((peopleOf connections).length * (connections.length + 1) + 2) [] [(start, [start])]
      hmeas
      (by
        intro e he
        rcases List.mem_cons.mp he with rfl | h
        · exact pathOn_single _ _
        · exact absurd h (List.not_mem_nil e))
      (twoBlock_singleton _)
      (by
        intro e he
        rcases List.mem_cons.mp he with rfl | h
        · exact hst
        · exact absurd h (List.not_mem_nil e))
      (by
        intro q hq
        refine ⟨0, pathOn_length_pos hq,
          ⟨(start, [start]), List.mem_cons_self _ _, (pathOn_getD_zero hq).symm, by simp⟩,
          ?_⟩
        intro k _ _
        exact List.not_mem_nil _)
    refine ⟨fun h => absurd h hst, ?_, ?_⟩
    · intro p hp
      rw [heq] at hp
      exact hmaster.2 p hp
    · rw [heq]
      constructor
      · rintro h ⟨q, hq⟩
        exact hmaster.1 h q hq
      · intro hnopath
        rcases hres : bfsFuel connections target
            ((peopleOf connections).length * (connections.length + 1) + 2)
            [] [(start, [start])] with _ | p
        · rfl
        · exact absurd ⟨p, (hmaster.2 p hres).1⟩ hnopath

/-- C1: `findShortestPath` returns, for every graph and every pair of names,
a sequence that begins at `start`, ends at `target`, has consecutive
elements directly connected, and is of minimal length among all such paths;
it returns `[start]` when `start = target`, and returns `null` (`none`)
exactly when no path exists. -/
theorem c1_findShortestPath_correct (connections : List Conn) (start target : String) :
    (start = target -> findShortestPath connections start target = some [start]) /\
    (forall p, findShortestPath connections start target = some p ->
      IsPath connections start target p /\
      forall q, IsPath connections start target q -> p.length <= q.length) /\
    (findShortestPath connections start target = none <->
      (Not (Exists fun q => IsPath connections start target q))) :=
  findShortestPath_correct connections start target

/-- Witness for C1 at the concrete graph `A—B—C—D`: the returned path
`[A,B,C,D]` is a path from A to D and no shorter one exists. -/
theorem c1_witness :
    IsPath demoConns "A" "D" ["A", "B", "C", "D"] ∧
    ∀ q, IsPath demoConns "A" "D" q → 4 ≤ q.length := by
  have h := (c1_findShortestPath_correct demoConns "A" "D").2.1 ["A", "B", "C", "D"]
    (by decide)
  exact ⟨h.1, fun q hq => h.2 q hq⟩

/-! ## The master specification of the `isGraphConnected` loop -/

theorem adjE_iff (edges : List Edge) (a b : String) :
    AdjE edges a b ↔
      ∃ e ∈ edges, (e.source = a ∧ e.target = b) ∨ (e.source = b ∧ e.target = a) := by
  unfold AdjE
  simp [List.any_eq_true]

theorem adjE_symm {edges : List Edge} {a b : String} (h : AdjE edges a b) : AdjE edges b a := by
  rw [adjE_iff] at h ⊢
  obtain ⟨e, he, hor⟩ := h
  exact ⟨e, he, hor.symm⟩

theorem mem_peopleOfE (edges : List Edge) (a : String) :
    a ∈ peopleOfE edges ↔ ∃ e ∈ edges, e.source = a ∨ e.target = a := by
  unfold peopleOfE
  simp only [List.mem_flatMap, List.mem_cons, List.not_mem_nil, or_false]
  constructor
  · rintro ⟨e, he, rfl | rfl⟩
    · exact ⟨e, he, Or.inl rfl⟩
    · exact ⟨e, he, Or.inr rfl⟩
  · rintro ⟨e, he, rfl | rfl⟩
    · exact ⟨e, he, Or.inl rfl⟩
    · exact ⟨e, he, Or.inr rfl⟩

theorem adjE_mem_left {edges : List Edge} {a b : String} (h : AdjE edges a b) :
    a ∈ peopleOfE edges := by
  rw [adjE_iff] at h
  obtain ⟨e, he, ⟨h1, _⟩ | ⟨_, h2⟩⟩ := h
  · exact (mem_peopleOfE edges a).mpr ⟨e, he, Or.inl h1⟩
  · exact (mem_peopleOfE edges a).mpr ⟨e, he, Or.inr h2⟩

theorem mem_igcPush (edges : List Edge) (visited : List String) (current v : String) :
    v ∈ igcPush edges visited current ↔ AdjE edges current v ∧ v ∉ visited := by
  unfold igcPush
  rw [adjE_iff]
  simp only [List.mem_flatMap, List.mem_append]
  constructor
  · rintro ⟨e, he, hcase | hcase⟩
    · rcases hcond : (e.source == current && !(visited.contains e.target)) with _ | _
      · rw [if_neg (by rw [hcond]; simp)] at hcase
        exact absurd hcase (List.not_mem_nil v)
      · rw [if_pos hcond] at hcase
        rcases List.mem_cons.mp hcase with rfl | h
        · rw [Bool.and_eq_true] at hcond
          refine ⟨⟨e, he, Or.inl ⟨beq_iff_eq.mp hcond.1, rfl⟩⟩, ?_⟩
          intro hmem
          have hthis := hcond.2
          rw [Bool.not_eq_true'] at hthis
          exact Bool.noConfusion
            (((contains_iff_mem visited e.target).mpr hmem).symm.trans hthis)
        · exact absurd h (List.not_mem_nil v)
    · rcases hcond : (e.target == current && !(visited.contains e.source)) with _ | _
      · rw [if_neg (by rw [hcond]; simp)] at hcase
        exact absurd hcase (List.not_mem_nil v)
      · rw [if_pos hcond] at hcase
        rcases List.mem_cons.mp hcase with rfl | h
        · rw [Bool.and_eq_true] at hcond
          refine ⟨⟨e, he, Or.inr ⟨rfl, beq_iff_eq.mp hcond.1⟩⟩, ?_⟩
          intro hmem
          have hthis := hcond.2
          rw [Bool.not_eq_true'] at hthis
          exact Bool.noConfusion
            (((contains_iff_mem visited e.source).mpr hmem).symm.trans hthis)
        · exact absurd h (List.not_mem_nil v)
  · rintro ⟨⟨e, he, ⟨h1, h2⟩ | ⟨h1, h2⟩⟩, hnv⟩
    · refine ⟨e, he, Or.inl ?_⟩
      have hcond : (e.source == current && !(visited.contains e.target)) = true := by
        rw [Bool.and_eq_true]
        refine ⟨beq_iff_eq.mpr h1, ?_⟩
        rw [Bool.not_eq_true']
        rw [← Bool.not_eq_true]
        intro hc
        rw [h2] at hc
        exact hnv ((contains_iff_mem _ _).mp hc)
      rw [if_pos hcond, h2]
      exact List.mem_cons_self _ _
    · refine ⟨e, he, Or.inr ?_⟩
      have hcond : (e.target == current && !(visited.contains e.source)) = true := by
        rw [Bool.and_eq_true]
        refine ⟨beq_iff_eq.mpr h2, ?_⟩
        rw [Bool.not_eq_true']
        rw [← Bool.not_eq_true]
        intro hc
        rw [h1] at hc
        exact hnv ((contains_iff_mem _ _).mp hc)
      rw [if_pos hcond, h1]
      exact List.mem_cons_self _ _

theorem igcPush_nil (edges : List Edge) (visited : List String) (current : String)
    (h : current ∉ peopleOfE edges) : igcPush edges visited current = [] := by
  rw [List.eq_nil_iff_forall_not_mem]
  intro v hv
  exact h (adjE_mem_left ((mem_igcPush edges visited current v).mp hv).1)

theorem igcPush_length_le (edges : List Edge) (visited : List String) (current : String) :
    (igcPush edges visited current).length ≤ 2 * edges.length := by
  unfold igcPush
  induction edges with
  | nil => simp
  | cons e es ih =>
    rw [List.flatMap_cons, List.length_append, List.length_cons]
    have h1 : ((if e.source == current && !(visited.contains e.target) then [e.target]
        else []) ++
        (if e.target == current && !(visited.contains e.source) then [e.source]
          else [])).length ≤ 2 := by
      rcases (e.source == current && !(visited.contains e.target)) with _ | _ <;>
        rcases (e.target == current && !(visited.contains e.source)) with _ | _ <;> simp
    omega

/-- Fresh people of the edge list, for the `isGraphConnected` measure. -/
def freshCountE (edges : List Edge) (visited : List String) : Nat :=
  ((peopleOfE edges).filter fun x => !(visited.contains x)).length

/-- Strictly decreasing measure of the `isGraphConnected` loop. -/
def igcMeasure (edges : List Edge) (visited queue : List String) : Nat :=
  freshCountE edges visited * (2 * edges.length + 1) + queue.length

theorem freshCountE_cons_le (edges : List Edge) (visited : List String) (u : String) :
    freshCountE edges (u :: visited) ≤ freshCountE edges visited :=
  filter_not_contains_le (peopleOfE edges) visited u

theorem freshCountE_cons_lt (edges : List Edge) (visited : List String) (u : String)
    (hu : u ∈ peopleOfE edges) (hv : u ∉ visited) :
    freshCountE edges (u :: visited) < freshCountE edges visited :=
  filter_not_contains_lt (peopleOfE edges) visited u hu hv

theorem freshCountE_nil (edges : List Edge) :
    freshCountE edges [] = (peopleOfE edges).length := by
  unfold freshCountE
  simp

/-- The frontier invariant of the `isGraphConnected` loop. -/
def FrontierE (visited queue q : List String) : Prop :=
  ∃ j, j < q.length ∧ q.getD j "" ∈ queue ∧
    (∀ k, j ≤ k → k < q.length → q.getD k "" ∉ visited)

theorem igcLoop_spec (edges : List Edge) (start target : String) :
    ∀ fuel visited queue,
      igcMeasure edges visited queue < fuel →
      (∀ u ∈ queue, ∃ p, IsPathE edges start u p) →
      (∀ q, IsPathE edges start target q → FrontierE visited queue q) →
      (igcLoop edges target fuel visited queue = true →
        ∃ p, IsPathE edges start target p) ∧
      (igcLoop edges target fuel visited queue = false →
        ∀ q, ¬ IsPathE edges start target q) := by
  intro fuel
  induction fuel with
  | zero =>
    intro visited queue hm
    exact absurd hm (Nat.not_lt_zero _)
  | succ f ih =>
    intro visited queue hm hreach hfr
    cases queue with
    | nil =>
      constructor
      · intro h
        exact Bool.noConfusion h
      · intro _ q hq
        obtain ⟨j, hj, hmem, _⟩ := hfr q hq
        exact absurd hmem (List.not_mem_nil _)
    | cons current rest =>
      have hstep : igcLoop edges target (f + 1) visited (current :: rest) =
          if visited.contains current then igcLoop edges target f visited rest
          else if current == target then true
          else
            igcLoop edges target f (current :: visited)
              (rest ++ igcPush edges (current :: visited) current) := rfl
      by_cases hvc : visited.contains current = true
      · rw [hstep, if_pos hvc]
        apply ih
        · unfold igcMeasure at hm ⊢
          simp only [List.length_cons] at hm
          omega
        · exact fun u hu => hreach u (List.mem_cons_of_mem _ hu)
        · intro q hq
          obtain ⟨j, hj, hmem, htail⟩ := hfr q hq
          refine ⟨j, hj, ?_, htail⟩
          rcases List.mem_cons.mp hmem with hcur | h
          · exfalso
            have hnv : q.getD j "" ∉ visited := htail j (le_refl j) hj
            rw [hcur] at hnv
            exact hnv ((contains_iff_mem visited current).mp hvc)
          · exact h
      · have hcv : current ∉ visited := fun h =>
          hvc ((contains_iff_mem visited current).mpr h)
        by_cases hct : (current == target) = true
        · rw [hstep, if_neg hvc, if_pos hct]
          have hcur : current = target := beq_iff_eq.mp hct
          constructor
          · intro _
            obtain ⟨p, hp⟩ := hreach current (List.mem_cons_self _ _)
            rw [hcur] at hp
            exact ⟨p, hp⟩
          · intro h
            exact Bool.noConfusion h
        · rw [hstep, if_neg hvc, if_neg hct]
          have hcnt : current ≠ target := fun h => hct (beq_iff_eq.mpr h)
          apply ih
          · unfold igcMeasure at hm ⊢
            rw [List.length_append]
            simp only [List.length_cons] at hm
            by_cases hppl : current ∈ peopleOfE edges
            · have hlt := freshCountE_cons_lt edges visited current hppl hcv
              have h2 : freshCountE edges (current :: visited) * (2 * edges.length + 1) +
                  (2 * edges.length + 1) ≤
                    freshCountE edges visited * (2 * edges.length + 1) := by
                have hmul : (freshCountE edges (current :: visited) + 1) *
                    (2 * edges.length + 1) ≤
                      freshCountE edges visited * (2 * edges.length + 1) :=
                  Nat.mul_le_mul_right _ hlt
                rw [Nat.succ_mul] at hmul
                exact hmul
              have hplen := igcPush_length_le edges (current :: visited) current
              exact measure_arith_fresh h2 (by omega) hm
            · rw [igcPush_nil edges (current :: visited) current hppl]
              have h2 : freshCountE edges (current :: visited) * (2 * edges.length + 1) ≤
                  freshCountE edges visited * (2 * edges.length + 1) :=
                Nat.mul_le_mul_right _ (freshCountE_cons_le edges visited current)
              have := measure_arith_stale h2 hm
              simpa using this
          · intro u hu
            rcases List.mem_append.mp hu with h | h
            · exact hreach u (List.mem_cons_of_mem _ h)
            · obtain ⟨hadj, _⟩ := (mem_igcPush edges (current :: visited) current u).mp h
              obtain ⟨p, hp⟩ := hreach current (List.mem_cons_self _ _)
              exact ⟨p ++ [u], pathOn_snoc hp hadj⟩
          · intro q hq
            obtain ⟨j, hj, hmem, htail⟩ := hfr q hq
            by_cases hex : ∃ k, hitP q j current k
            · obtain ⟨k1, hk1j, hk1lt, hk1eq⟩ := hex
              have hq1 : 1 ≤ q.length := pathOn_length_pos hq
              have hk1le : k1 ≤ q.length - 1 := by omega
              have hPk1 : hitP q j current k1 := ⟨hk1j, hk1lt, hk1eq⟩
              have hPk0 := Nat.findGreatest_spec hk1le hPk1
              obtain ⟨hjk0, hk0lt, hk0eq⟩ := hPk0
              have hmax : ∀ k, Nat.findGreatest (hitP q j current) (q.length - 1) < k →
                  k ≤ q.length - 1 → ¬ hitP q j current k :=
                fun k h1 h2 => Nat.findGreatest_is_greatest h1 h2
              have hlast : q.getD (q.length - 1) "" = target := pathOn_getD_last hq
              have hk0ne : Nat.findGreatest (hitP q j current) (q.length - 1) ≠
                  q.length - 1 := by
                intro h
                rw [h, hlast] at hk0eq
                exact hcnt hk0eq.symm
              have hk0lt1 : Nat.findGreatest (hitP q j current) (q.length - 1) + 1 <
                  q.length := by omega
              have hadjv : AdjE edges current
                  (q.getD (Nat.findGreatest (hitP q j current) (q.length - 1) + 1) "") := by
                have hch := chain'_getD hq.2.2 _ hk0lt1
                rw [hk0eq] at hch
                exact hch
              have hvnv : q.getD (Nat.findGreatest (hitP q j current) (q.length - 1) + 1) ""
                  ∉ visited :=
                htail _ (by omega) hk0lt1
              have hvne : q.getD (Nat.findGreatest (hitP q j current) (q.length - 1) + 1) ""
                  ≠ current := by
                intro h
                exact hmax _ (by omega) (by omega) ⟨by omega, hk0lt1, h⟩
              have hvnotin : q.getD
                  (Nat.findGreatest (hitP q j current) (q.length - 1) + 1) ""
                  ∉ current :: visited := by
                intro h
                rcases List.mem_cons.mp h with h | h
                · exact hvne h
                · exact hvnv h
              have hentry := (mem_igcPush edges (current :: visited) current _).mpr
                ⟨hadjv, hvnotin⟩
              refine ⟨_, hk0lt1, List.mem_append.mpr (Or.inr hentry), ?_⟩
              intro k hk hklt hmem2
              rcases List.mem_cons.mp hmem2 with h | h
              · exact hmax k (by omega) (by omega) ⟨by omega, hklt, h⟩
              · exact htail k (by omega) hklt h
            · push_neg at hex
              have hene : q.getD j "" ∈ rest := by
                rcases List.mem_cons.mp hmem with hcur | h
                · exact absurd ⟨le_refl j, hj, hcur⟩ (hex j)
                · exact h
              refine ⟨j, hj, List.mem_append.mpr (Or.inl hene), ?_⟩
              intro k hk hklt hmem2
              rcases List.mem_cons.mp hmem2 with h | h
              · exact hex k ⟨hk, hklt, h⟩
              · exact htail k hk hklt h

/-- Helper: `isGraphConnected` is `true` exactly when the edge list is non-empty and
some path over the supplied edges joins start and target (when
`start = target` the one-element path witnesses this). -/
theorem isGraphConnected_iff (edges : List Edge) (start target : String) :
    isGraphConnected edges start target = true ↔
      edges ≠ [] ∧ ∃ p, IsPathE edges start target p := by
  cases edges with
  | nil =>
    unfold isGraphConnected
    simp
  | cons e es =>
    have hne : e :: es ≠ [] := List.cons_ne_nil e es
    have hguard : ((e :: es).length == 0) = false := by simp
    have heq : isGraphConnected (e :: es) start target =
        igcLoop (e :: es) target
          ((peopleOfE (e :: es)).length * (2 * (e :: es).length + 1) + 2)
          [] [start] := by
      unfold isGraphConnected
      rw [if_neg (by simp [hguard])]
    have hmeas : igcMeasure (e :: es) [] [start] <
        (peopleOfE (e :: es)).length * (2 * (e :: es).length + 1) + 2 := by
      unfold igcMeasure
      rw [freshCountE_nil]
      simp
    have hmaster := igcLoop_spec (e :: es) start target
      ((peopleOfE (e :: es)).length * (2 * (e :: es).length + 1) + 2) [] [start]
      hmeas
      (by
        intro u hu
        rcases List.mem_cons.mp hu with rfl | h
        · exact ⟨[u], pathOn_single _ _⟩
        · exact absurd h (List.not_mem_nil u))
      (by
        intro q hq
        refine ⟨0, pathOn_length_pos hq, ?_, ?_⟩
        · rw [pathOn_getD_zero hq]
          exact List.mem_cons_self _ _
        · intro k _ _
          exact List.not_mem_nil _)
    rw [heq]
    constructor
    · intro h
      exact ⟨hne, hmaster.1 h⟩
    · rintro ⟨_, p, hp⟩
      rcases hres : igcLoop (e :: es) target
          ((peopleOfE (e :: es)).length * (2 * (e :: es).length + 1) + 2) [] [start] with _ | _
      · exact absurd hp (hmaster.2 hres p)
      · rfl

/-! ## C10 and C3 -/

/-- C10: on an empty edge list `isGraphConnected` returns `false` for every
start and target — including the case `startPerson = targetPerson`, which the
universal quantification covers and the guard decides before any BFS. -/
theorem c10_isGraphConnected_empty (startPerson targetPerson : String) :
    isGraphConnected [] startPerson targetPerson = false := rfl

theorem adjE_edgesOf (connections : List Conn) (a b : String) :
    AdjE (edgesOf connections) a b ↔ Adj connections a b := by
  rw [adjE_iff]
  unfold Adj
  rw [areDirectlyConnected_iff]
  unfold edgesOf
  simp only [List.mem_map]
  constructor
  · rintro ⟨e, ⟨c, hc, rfl⟩, hor⟩
    exact ⟨c, hc, hor⟩
  · rintro ⟨c, hc, hor⟩
    exact ⟨⟨c.name1, c.name2⟩, ⟨c, hc, rfl⟩, hor⟩

theorem isPathE_edgesOf (connections : List Conn) (s t : String) (p : List String) :
    IsPathE (edgesOf connections) s t p ↔ IsPath connections s t p := by
  unfold IsPathE IsPath PathOn
  constructor <;> rintro ⟨h1, h2, h3⟩ <;> refine ⟨h1, h2, ?_⟩
  · exact List.Chain'.imp (fun a b h => (adjE_edgesOf connections a b).mp h) h3
  · exact List.Chain'.imp (fun a b h => (adjE_edgesOf connections a b).mpr h) h3

/-- C3 counterexample: on the empty graph with `a = b = "A"`,
`findShortestPath` returns the one-element path (a path exists) while
`isGraphConnected` on the full — empty — edge set returns `false`, so
"`findShortestPath` returns null iff `isGraphConnected` returns false"
fails in the `a = b` direction. -/
theorem c3_counterexample :
    findShortestPath [] "A" "A" = some ["A"] ∧
    isGraphConnected (edgesOf []) "A" "A" = false :=
  ⟨rfl, rfl⟩

/-- C3 amended: the equivalence between `findShortestPath a b = none` and
`isGraphConnected (edgesOf g) a b = false` holds whenever the edge list is
non-empty or `a ≠ b`; the only failures are empty edge lists with `a = b`,
where `findShortestPath` returns `[a]` but `isGraphConnected` returns
`false`. -/
theorem c3_amended (connections : List Conn) (a b : String)
    (h : connections ≠ [] ∨ a ≠ b) :
    (findShortestPath connections a b = none ↔
      isGraphConnected (edgesOf connections) a b = false) := by
  constructor
  · intro hnone
    have hnopath := (findShortestPath_correct connections a b).2.2.mp hnone
    rcases hres : isGraphConnected (edgesOf connections) a b with _ | _
    · rfl
    · exfalso
      obtain ⟨_, p, hp⟩ := (isGraphConnected_iff _ a b).mp hres
      exact hnopath ⟨p, (isPathE_edgesOf connections a b p).mp hp⟩
  · intro hfalse
    rcases hsp : findShortestPath connections a b with _ | p
    · rfl
    · exfalso
      have hpath := ((findShortestPath_correct connections a b).2.1 p hsp).1
      have hpe : IsPathE (edgesOf connections) a b p :=
        (isPathE_edgesOf _ _ _ _).mpr hpath
      have hne : edgesOf connections ≠ [] := by
        rcases h with h | h
        · intro hnil
          unfold edgesOf at hnil
          exact h (List.map_eq_nil_iff.mp hnil)
        · obtain ⟨x, y, hxy⟩ := pathOn_exists_rel hpath h
          intro hnil
          unfold edgesOf at hnil
          have hcn : connections = [] := List.map_eq_nil_iff.mp hnil
          subst hcn
          unfold Adj areDirectlyConnected at hxy
          simp at hxy
      have htrue := (isGraphConnected_iff (edgesOf connections) a b).mpr ⟨hne, p, hpe⟩
      rw [hfalse] at htrue
      exact Bool.noConfusion htrue

/-- Witness for the amended C3: at the graph `A—B—C—D` and the unreachable
name `Z`, both sides of the equivalence hold. -/
theorem c3_witness :
    (findShortestPath demoConns "A" "Z" = none ↔
      isGraphConnected (edgesOf demoConns) "A" "Z" = false) :=
  c3_amended demoConns "A" "Z" (Or.inl (by decide))

/-! ## The inductive invariant of reachable game sessions -/

/-- Inductive invariant of reachable sessions (strengthened so that it is
preserved by every guess). -/
def Inv (connections : List Conn) (s : GameState) : Prop :=
  s.gameStarted = true ∧
  s.startPerson ∈ s.revealedPeople ∧
  s.targetPerson ∈ s.revealedPeople ∧
  (∀ p ∈ s.revealedPeople, p ∈ allPeopleList connections) ∧
  (∀ e ∈ s.revealedConnections,
    areDirectlyConnected connections e.source e.target = true ∧
    e.source ∈ s.revealedPeople ∧ e.target ∈ s.revealedPeople) ∧
  s.attempts ≤ s.maxAttempts ∧
  1 ≤ s.maxAttempts ∧
  (s.gameWon = false → s.gameLost = false → s.attempts < s.maxAttempts) ∧
  (s.gameWon = false →
    isGraphConnected s.revealedConnections s.startPerson s.targetPerson = false) ∧
  (s.gameWon = true →
    isGraphConnected s.revealedConnections s.startPerson s.targetPerson = true) ∧
  (s.gameLost = true → s.attempts = s.maxAttempts ∧ s.gameWon = false)

theorem penaltyUpdate_inv (connections : List Conn) (s : GameState)
    (hinv : Inv connections s) (hw : s.gameWon = false) (hl : s.gameLost = false) :
    Inv connections (penaltyUpdate s) := by
  obtain ⟨h1, h2, h3, h4, h5, h6, h7, h8, h9, h10, h11⟩ := hinv
  have hlt : s.attempts < s.maxAttempts := h8 hw hl
  unfold penaltyUpdate
  by_cases hge : s.attempts + 1 ≥ s.maxAttempts
  · rw [if_pos hge]
    refine ⟨h1, h2, h3, h4, h5, show s.attempts + 1 ≤ s.maxAttempts by omega, h7,
      ?_, ?_, ?_, ?_⟩
    · intro _ hc
      exact Bool.noConfusion hc
    · intro _
      exact h9 hw
    · intro hc
      exact Bool.noConfusion (hw.symm.trans hc)
    · intro _
      exact ⟨show s.attempts + 1 = s.maxAttempts by omega, hw⟩
  · rw [if_neg hge]
    refine ⟨h1, h2, h3, h4, h5, show s.attempts + 1 ≤ s.maxAttempts by omega, h7,
      ?_, ?_, ?_, ?_⟩
    · intro _ _
      show s.attempts + 1 < s.maxAttempts
      omega
    · intro _
      exact h9 hw
    · intro hc
      exact Bool.noConfusion (hw.symm.trans hc)
    · intro hc
      exact Bool.noConfusion (hl.symm.trans hc)

theorem newConnectionsFor_spec (connections : List Conn) (s : GameState)
    (searchName : String) :
    ∀ e ∈ newConnectionsFor connections s searchName,
      e.source = searchName ∧ e.target ∈ s.revealedPeople ∧
      areDirectlyConnected connections e.source e.target = true := by
  intro e he
  unfold newConnectionsFor at he
  obtain ⟨r, hr, rfl⟩ := List.mem_map.mp he
  obtain ⟨hrmem, hradc⟩ := List.mem_filter.mp hr
  exact ⟨rfl, hrmem, hradc⟩

theorem revealUpdate_inv (connections : List Conn) (s : GameState)
    (hinv : Inv connections s) (hw : s.gameWon = false) (hl : s.gameLost = false)
    (searchName : String) (hall : searchName ∈ allPeopleList connections) :
    Inv connections (revealUpdate connections s searchName) := by
  obtain ⟨h1, h2, h3, h4, h5, h6, h7, h8, h9, h10, h11⟩ := hinv
  have hlt : s.attempts < s.maxAttempts := h8 hw hl
  have hedges : ∀ e ∈ s.revealedConnections ++ newConnectionsFor connections s searchName,
      areDirectlyConnected connections e.source e.target = true ∧
      e.source ∈ s.revealedPeople ++ [searchName] ∧
      e.target ∈ s.revealedPeople ++ [searchName] := by
    intro e he
    rcases List.mem_append.mp he with h | h
    · obtain ⟨ha, hb, hc⟩ := h5 e h
      exact ⟨ha, List.mem_append.mpr (Or.inl hb), List.mem_append.mpr (Or.inl hc)⟩
    · obtain ⟨ha, hb, hc⟩ := newConnectionsFor_spec connections s searchName e h
      refine ⟨hc, ?_, List.mem_append.mpr (Or.inl hb)⟩
      rw [ha]
      exact List.mem_append.mpr (Or.inr (List.mem_cons_self _ _))
  have hppl : ∀ p ∈ s.revealedPeople ++ [searchName], p ∈ allPeopleList connections := by
    intro p hp
    rcases List.mem_append.mp hp with h | h
    · exact h4 p h
    · rcases List.mem_cons.mp h with rfl | h
      · exact hall
      · exact absurd h (List.not_mem_nil p)
  have hstartmem : s.startPerson ∈ s.revealedPeople ++ [searchName] :=
    List.mem_append.mpr (Or.inl h2)
  have htargetmem : s.targetPerson ∈ s.revealedPeople ++ [searchName] :=
    List.mem_append.mpr (Or.inl h3)
  unfold revealUpdate
  rcases hwin : isGraphConnected
      (s.revealedConnections ++ newConnectionsFor connections s searchName)
      s.startPerson s.targetPerson with _ | _
  · rw [if_neg (by simp)]
    by_cases hge : s.attempts + 1 ≥ s.maxAttempts
    · rw [if_pos hge]
      refine ⟨h1, hstartmem, htargetmem, hppl, hedges,
        show s.attempts + 1 ≤ s.maxAttempts by omega, h7, ?_, ?_, ?_, ?_⟩
      · intro _ hc
        exact Bool.noConfusion hc
      · intro _
        exact hwin
      · intro hc
        exact Bool.noConfusion (hw.symm.trans hc)
      · intro _
        exact ⟨show s.attempts + 1 = s.maxAttempts by omega, hw⟩
    · rw [if_neg hge]
      refine ⟨h1, hstartmem, htargetmem, hppl, hedges,
        show s.attempts + 1 ≤ s.maxAttempts by omega, h7, ?_, ?_, ?_, ?_⟩
      · intro _ _
        show s.attempts + 1 < s.maxAttempts
        omega
      · intro _
        exact hwin
      · intro hc
        exact Bool.noConfusion (hw.symm.trans hc)
      · intro hc
        exact Bool.noConfusion (hl.symm.trans hc)
  · rw [if_pos rfl]
    refine ⟨h1, hstartmem, htargetmem, hppl, hedges,
      show s.attempts + 1 ≤ s.maxAttempts by omega, h7, ?_, ?_, ?_, ?_⟩
    · intro hc
      exact Bool.noConfusion hc
    · intro hc
      exact Bool.noConfusion hc
    · intro _
      exact hwin
    · intro hc
      exact Bool.noConfusion (hl.symm.trans hc)

theorem handleSearchWithName_inv (connections : List Conn) (s : GameState)
    (hinv : Inv connections s) (name : String) :
    Inv connections (handleSearchWithName connections s name) := by
  unfold handleSearchWithName
  by_cases hguard : (jsTrim name == "" || s.gameWon || s.gameLost) = true
  · rw [if_pos hguard]
    exact hinv
  · rw [if_neg hguard]
    have hw : s.gameWon = false := by
      rcases hres : s.gameWon with _ | _
      · rfl
      · exact absurd (by rw [hres]; simp) hguard
    have hl : s.gameLost = false := by
      rcases hres : s.gameLost with _ | _
      · rfl
      · exact absurd (by rw [hres]; simp) hguard
    by_cases hnf : ((allPeopleList connections).contains (jsTrim name)) = true
    · rw [if_neg (by rw [hnf]; simp)]
      by_cases hrev : (s.revealedPeople.contains (jsTrim name)) = true
      · rw [if_pos hrev]
        exact hinv
      · rw [if_neg hrev]
        by_cases hlink : (s.revealedPeople.any fun revealedPerson =>
            areDirectlyConnected connections (jsTrim name) revealedPerson) = true
        · rw [if_neg (by rw [hlink]; simp)]
          exact revealUpdate_inv connections s hinv hw hl (jsTrim name)
            ((contains_iff_mem _ _).mp hnf)
        · rw [if_pos (by rw [eq_false_of_not_eq_true hlink]; rfl)]
          exact penaltyUpdate_inv connections s hinv hw hl
    · rw [if_pos (by rw [eq_false_of_not_eq_true hnf]; rfl)]
      exact penaltyUpdate_inv connections s hinv hw hl

theorem startState_inv (connections : List Conn) (st tg : String)
    (hs : st ∈ allPeopleList connections) (ht : tg ∈ allPeopleList connections) :
    Inv connections (startState st tg) := by
  have hmem1 : st ∈ insertUnique (insertUnique [] st) tg := by
    rw [mem_insertUnique]
    exact Or.inl (by rw [mem_insertUnique]; exact Or.inr rfl)
  have hmem2 : tg ∈ insertUnique (insertUnique [] st) tg := by
    rw [mem_insertUnique]
    exact Or.inr rfl
  refine ⟨rfl, hmem1, hmem2, ?_, ?_, show (0 : Nat) ≤ 100 by omega,
    show (1 : Nat) ≤ 100 by omega, ?_, ?_, ?_, ?_⟩
  · intro p hp
    have hp' : p ∈ insertUnique (insertUnique [] st) tg := hp
    rw [mem_insertUnique, mem_insertUnique] at hp'
    rcases hp' with (hp' | rfl) | rfl
    · exact absurd hp' (List.not_mem_nil p)
    · exact hs
    · exact ht
  · intro e he
    exact absurd he (List.not_mem_nil e)
  · intro _ _
    show (0 : Nat) < 100
    omega
  · intro _
    rfl
  · intro hc
    exact Bool.noConfusion hc
  · intro hc
    exact Bool.noConfusion hc

theorem reachable_inv (connections : List Conn) (s : GameState)
    (h : Reachable connections s) : Inv connections s := by
  induction h with
  | init a b ha hb _ => exact startState_inv connections a b ha hb
  | guess name _ ih => exact handleSearchWithName_inv connections _ ih name
  | tick t _ _ _ ih => exact ih

/-! ## Claim theorems about the session state machine -/

/-- C4: every session reachable from a fresh start by any sequence of
guesses satisfies: revealed connections are edges of the full graph with
both endpoints revealed; `attempts ≤ maxAttempts` while in progress;
`gameWon` only with start and target connected inside
`revealedConnections`; `gameLost` only with `attempts = maxAttempts` and
the win condition not holding; and start and target always revealed. -/
theorem c4_session_invariants (connections : List Conn) (s : GameState)
    (h : Reachable connections s) :
    (∀ e ∈ s.revealedConnections,
      areDirectlyConnected connections e.source e.target = true ∧
      e.source ∈ s.revealedPeople ∧ e.target ∈ s.revealedPeople) ∧
    (s.gameWon = false → s.gameLost = false → s.attempts ≤ s.maxAttempts) ∧
    (s.gameWon = true →
      isGraphConnected s.revealedConnections s.startPerson s.targetPerson = true) ∧
    (s.gameLost = true → s.attempts = s.maxAttempts ∧ s.gameWon = false ∧
      isGraphConnected s.revealedConnections s.startPerson s.targetPerson = false) ∧
    s.startPerson ∈ s.revealedPeople ∧ s.targetPerson ∈ s.revealedPeople := by
  obtain ⟨h1, h2, h3, h4, h5, h6, h7, h8, h9, h10, h11⟩ := reachable_inv connections s h
  refine ⟨h5, fun _ _ => h6, h10, ?_, h2, h3⟩
  intro hlost
  obtain ⟨ha, hb⟩ := h11 hlost
  exact ⟨ha, hb, h9 hb⟩

/-- Witness for C4 at the freshly started session `(A, D)` on `A—B—C—D`. -/
theorem c4_witness :
    (∀ e ∈ (startState "A" "D").revealedConnections,
      areDirectlyConnected demoConns e.source e.target = true ∧
      e.source ∈ (startState "A" "D").revealedPeople ∧
      e.target ∈ (startState "A" "D").revealedPeople) ∧
    ((startState "A" "D").gameWon = false → (startState "A" "D").gameLost = false →
      (startState "A" "D").attempts ≤ (startState "A" "D").maxAttempts) ∧
    ((startState "A" "D").gameWon = true →
      isGraphConnected (startState "A" "D").revealedConnections
        (startState "A" "D").startPerson (startState "A" "D").targetPerson = true) ∧
    ((startState "A" "D").gameLost = true →
      (startState "A" "D").attempts = (startState "A" "D").maxAttempts ∧
      (startState "A" "D").gameWon = false ∧
      isGraphConnected (startState "A" "D").revealedConnections
        (startState "A" "D").startPerson (startState "A" "D").targetPerson = false) ∧
    (startState "A" "D").startPerson ∈ (startState "A" "D").revealedPeople ∧
    (startState "A" "D").targetPerson ∈ (startState "A" "D").revealedPeople :=
  c4_session_invariants demoConns (startState "A" "D")
    (Reachable.init "A" "D" (by decide) (by decide) (by decide))

/-- C5: guessing a name already in `revealedPeople` is a free no-op: the
resulting session equals the old one, so attempts, reveals and status are
all unchanged — guessing the same bridging name a second time leaves the
attempts count where the first call put it. -/
theorem c5_already_revealed_noop (connections : List Conn) (s : GameState)
    (hre : Reachable connections s) (hw : s.gameWon = false) (hl : s.gameLost = false)
    (name : String) (hmem : jsTrim name ∈ s.revealedPeople) :
    handleSearchWithName connections s name = s := by
  obtain ⟨h1, h2, h3, h4, h5, h6, h7, h8, h9, h10, h11⟩ := reachable_inv connections s hre
  unfold handleSearchWithName
  by_cases hblank : (jsTrim name == "") = true
  · rw [if_pos (by rw [hblank]; rfl)]
  · have hbf : (jsTrim name == "") = false := eq_false_of_not_eq_true hblank
    rw [if_neg (by rw [hbf, hw, hl]; simp)]
    have hcont : ((allPeopleList connections).contains (jsTrim name)) = true :=
      (contains_iff_mem _ _).mpr (h4 _ hmem)
    rw [if_neg (by rw [hcont]; simp)]
    rw [if_pos ((contains_iff_mem _ _).mpr hmem)]

/-- Witness for C5: in the fresh session `(A, D)`, re-guessing the already
revealed `A` leaves the session unchanged. -/
theorem c5_witness :
    handleSearchWithName demoConns (startState "A" "D") "A" = startState "A" "D" :=
  c5_already_revealed_noop demoConns (startState "A" "D")
    (Reachable.init "A" "D" (by decide) (by decide) (by decide)) rfl rfl "A" (by decide)

/-- The NotFound branch: a non-blank guess absent from the graph takes the
shared penalty update. -/
theorem handleSearchWithName_notFound (connections : List Conn) (s : GameState)
    (hw : s.gameWon = false) (hl : s.gameLost = false) (name : String)
    (hne : jsTrim name ≠ "") (habs : jsTrim name ∉ allPeopleList connections) :
    handleSearchWithName connections s name = penaltyUpdate s := by
  unfold handleSearchWithName
  have hbf : (jsTrim name == "") = false := by
    rcases h : (jsTrim name == "") with _ | _
    · rfl
    · exact absurd (beq_iff_eq.mp h) hne
  rw [if_neg (by rw [hbf, hw, hl]; simp)]
  have hcf : ((allPeopleList connections).contains (jsTrim name)) = false := by
    rcases h : ((allPeopleList connections).contains (jsTrim name)) with _ | _
    · rfl
    · exact absurd ((contains_iff_mem _ _).mp h) habs
  rw [if_pos (by rw [hcf]; rfl)]

/-- C6: guessing a name that appears in no edge of the graph increments
attempts by exactly one and changes nothing else (no reveal, no win, same
start/target/cap/score), and the status becomes Lost exactly when the
increment reaches `maxAttempts`, staying InProgress otherwise. -/
theorem c6_unknown_name (connections : List Conn) (s : GameState)
    (hre : Reachable connections s) (hw : s.gameWon = false) (hl : s.gameLost = false)
    (name : String) (hne : jsTrim name ≠ "")
    (habs : jsTrim name ∉ allPeopleList connections) :
    (handleSearchWithName connections s name).attempts = s.attempts + 1 ∧
    (handleSearchWithName connections s name).revealedPeople = s.revealedPeople ∧
    (handleSearchWithName connections s name).revealedConnections =
      s.revealedConnections ∧
    (handleSearchWithName connections s name).gameWon = false ∧
    (handleSearchWithName connections s name).startPerson = s.startPerson ∧
    (handleSearchWithName connections s name).targetPerson = s.targetPerson ∧
    (handleSearchWithName connections s name).maxAttempts = s.maxAttempts ∧
    (handleSearchWithName connections s name).score = s.score ∧
    ((handleSearchWithName connections s name).gameLost = true ↔
      s.attempts + 1 = s.maxAttempts) := by
  obtain ⟨h1, h2, h3, h4, h5, h6, h7, h8, h9, h10, h11⟩ := reachable_inv connections s hre
  have hlt : s.attempts < s.maxAttempts := h8 hw hl
  rw [handleSearchWithName_notFound connections s hw hl name hne habs]
  unfold penaltyUpdate
  by_cases hge : s.attempts + 1 ≥ s.maxAttempts
  · rw [if_pos hge]
    refine ⟨rfl, rfl, rfl, hw, rfl, rfl, rfl, rfl, ?_⟩
    constructor
    · intro _
      omega
    · intro _
      rfl
  · rw [if_neg hge]
    refine ⟨rfl, rfl, rfl, hw, rfl, rfl, rfl, rfl, ?_⟩
    constructor
    · intro hc
      exact absurd (hl.symm.trans hc) (by simp)
    · intro hc
      exact absurd hc (by omega)

/-- Witness for C6: guessing `Zed` (absent from `A—B—C—D`) in the fresh
session `(A, D)` only increments attempts, and does not lose the game since
`0 + 1 < 100`. -/
theorem c6_witness :
    (handleSearchWithName demoConns (startState "A" "D") "Zed").attempts =
      (startState "A" "D").attempts + 1 ∧
    (handleSearchWithName demoConns (startState "A" "D") "Zed").revealedPeople =
      (startState "A" "D").revealedPeople ∧
    (handleSearchWithName demoConns (startState "A" "D") "Zed").revealedConnections =
      (startState "A" "D").revealedConnections ∧
    (handleSearchWithName demoConns (startState "A" "D") "Zed").gameWon = false ∧
    (handleSearchWithName demoConns (startState "A" "D") "Zed").startPerson =
      (startState "A" "D").startPerson ∧
    (handleSearchWithName demoConns (startState "A" "D") "Zed").targetPerson =
      (startState "A" "D").targetPerson ∧
    (handleSearchWithName demoConns (startState "A" "D") "Zed").maxAttempts =
      (startState "A" "D").maxAttempts ∧
    (handleSearchWithName demoConns (startState "A" "D") "Zed").score =
      (startState "A" "D").score ∧
    ((handleSearchWithName demoConns (startState "A" "D") "Zed").gameLost = true ↔
      (startState "A" "D").attempts + 1 = (startState "A" "D").maxAttempts) :=
  c6_unknown_name demoConns (startState "A" "D")
    (Reachable.init "A" "D" (by decide) (by decide) (by decide)) rfl rfl "Zed"
    (by decide) (by decide)

/-- C7: once a session is terminal (won or lost), every further guess
leaves the session completely unchanged; only `startNewGame` installs a
fresh session (`startState`). -/
theorem c7_terminal_frozen (connections : List Conn) (s : GameState) (name : String)
    (h : s.gameWon = true ∨ s.gameLost = true) :
    handleSearchWithName connections s name = s := by
  unfold handleSearchWithName
  rcases h with h | h
  · rw [if_pos (by rw [h]; simp)]
  · rw [if_pos (by rw [h]; simp)]

/-- Witness for C7: a won session on `A—B—C—D` ignores a further guess. -/
theorem c7_witness :
    handleSearchWithName demoConns { startState "A" "D" with gameWon := true } "B" =
      { startState "A" "D" with gameWon := true } :=
  c7_terminal_frozen demoConns { startState "A" "D" with gameWon := true } "B" (Or.inl rfl)

/-- C8: whenever a guess wins the game, the resulting score is exactly
`computeScore` of the session's elapsed milliseconds, the incremented
attempt count, and `maxAttempts` — deterministically, with no other
inputs. -/
theorem c8_win_score (connections : List Conn) (s : GameState) (name : String)
    (hw : s.gameWon = false)
    (hwin : (handleSearchWithName connections s name).gameWon = true) :
    (handleSearchWithName connections s name).score =
      computeScore s.timeElapsed (s.attempts + 1) s.maxAttempts := by
  unfold handleSearchWithName at hwin ⊢
  by_cases hguard : (jsTrim name == "" || s.gameWon || s.gameLost) = true
  · rw [if_pos hguard] at hwin ⊢
    exact absurd (hw.symm.trans hwin) (by simp)
  · rw [if_neg hguard] at hwin ⊢
    by_cases hnf : ((allPeopleList connections).contains (jsTrim name)) = true
    · rw [if_neg (by rw [hnf]; simp)] at hwin ⊢
      by_cases hrev : (s.revealedPeople.contains (jsTrim name)) = true
      · rw [if_pos hrev] at hwin ⊢
        exact absurd (hw.symm.trans hwin) (by simp)
      · rw [if_neg hrev] at hwin ⊢
        by_cases hlink : (s.revealedPeople.any fun revealedPerson =>
            areDirectlyConnected connections (jsTrim name) revealedPerson) = true
        · rw [if_neg (by rw [hlink]; simp)] at hwin ⊢
          unfold revealUpdate at hwin ⊢
          by_cases hwc : isGraphConnected
              (s.revealedConnections ++ newConnectionsFor connections s (jsTrim name))
              s.startPerson s.targetPerson = true
          · rw [if_pos hwc]
            rfl
          · rw [if_neg hwc] at hwin
            by_cases hge : s.attempts + 1 ≥ s.maxAttempts
            · rw [if_pos hge] at hwin
              exact absurd (hw.symm.trans hwin) (by simp)
            · rw [if_neg hge] at hwin
              exact absurd (hw.symm.trans hwin) (by simp)
        · rw [if_pos (by rw [eq_false_of_not_eq_true hlink]; rfl)] at hwin ⊢
          unfold penaltyUpdate at hwin
          by_cases hge : s.attempts + 1 ≥ s.maxAttempts
          · rw [if_pos hge] at hwin
            exact absurd (hw.symm.trans hwin) (by simp)
          · rw [if_neg hge] at hwin
            exact absurd (hw.symm.trans hwin) (by simp)
    · rw [if_pos (by rw [eq_false_of_not_eq_true hnf]; rfl)] at hwin ⊢
      unfold penaltyUpdate at hwin
      by_cases hge : s.attempts + 1 ≥ s.maxAttempts
      · rw [if_pos hge] at hwin
        exact absurd (hw.symm.trans hwin) (by simp)
      · rw [if_neg hge] at hwin
        exact absurd (hw.symm.trans hwin) (by simp)

/-- Witness for C8: guessing `B` in the fresh session `(A, C)` on `A—B—C—D`
wins and scores `computeScore 0 1 100`. -/
theorem c8_witness :
    (startState "A" "C").gameWon = false ∧
    (handleSearchWithName demoConns (startState "A" "C") "B").gameWon = true ∧
    (handleSearchWithName demoConns (startState "A" "C") "B").score =
      computeScore (startState "A" "C").timeElapsed
        ((startState "A" "C").attempts + 1) (startState "A" "C").maxAttempts :=
  ⟨rfl, by decide, c8_win_score demoConns (startState "A" "C") "B" rfl (by decide)⟩

/-! ## C9: case sensitivity of the guess validation -/

/-- Per-character lowercasing (JS `toLowerCase` on ASCII), used to say that
two names differ only in letter case. -/
def jsToLower (s : String) : String := ⟨s.data.map Char.toLower⟩

/-- Graph with the single stored connection `Alice — Bob`. -/
def caseConns : List Conn := [⟨"Alice", "Bob"⟩]

/-- C9 counterexample: the guess `"alice"` differs from the stored
`"Alice"` only in letter case, yet the lookup that validates the guess
rejects it — the NotFound branch runs, consuming an attempt and revealing
nothing — because the validation tests exact membership of the trimmed
guess in the people set. -/
theorem c9_counterexample :
    "Alice" ∈ allPeopleList caseConns ∧
    jsToLower (jsTrim "alice") = jsToLower "Alice" ∧
    jsTrim "alice" ≠ "Alice" ∧
    (allPeopleList caseConns).contains (jsTrim "alice") = false ∧
    (handleSearchWithName caseConns (startState "Alice" "Bob") "alice").attempts =
      (startState "Alice" "Bob").attempts + 1 ∧
    (handleSearchWithName caseConns (startState "Alice" "Bob") "alice").revealedPeople =
      (startState "Alice" "Bob").revealedPeople :=
  ⟨by decide, by decide, by decide, by decide, by decide, by decide⟩

/-- C9 amended: the lookup validating a guess matches case-sensitively
(exact string membership): a guess whose trimmed form is a case variant of
a stored person's name but is not itself stored is rejected as NotFound —
attempts increment by one and the revealed set (which keeps the stored
names' original casing) is unchanged. -/
theorem c9_case_sensitive_lookup (connections : List Conn) (s : GameState)
    (hw : s.gameWon = false) (hl : s.gameLost = false)
    (name p : String) (hp : p ∈ allPeopleList connections)
    (hcase : jsToLower (jsTrim name) = jsToLower p)
    (hne : jsTrim name ≠ "")
    (habs : jsTrim name ∉ allPeopleList connections) :
    (handleSearchWithName connections s name).attempts = s.attempts + 1 ∧
    (handleSearchWithName connections s name).revealedPeople = s.revealedPeople := by
  rw [handleSearchWithName_notFound connections s hw hl name hne habs]
  unfold penaltyUpdate
  by_cases hge : s.attempts + 1 ≥ s.maxAttempts
  · rw [if_pos hge]
    exact ⟨rfl, rfl⟩
  · rw [if_neg hge]
    exact ⟨rfl, rfl⟩

/-- Witness for the amended C9, at the `Alice — Bob` graph and guess
`"alice"`. -/
theorem c9_witness :
    (handleSearchWithName caseConns (startState "Alice" "Bob") "alice").attempts =
      (startState "Alice" "Bob").attempts + 1 ∧
    (handleSearchWithName caseConns (startState "Alice" "Bob") "alice").revealedPeople =
      (startState "Alice" "Bob").revealedPeople :=
  c9_case_sensitive_lookup caseConns (startState "Alice" "Bob") rfl rfl "alice" "Alice"
    (by decide) (by decide) (by decide) (by decide)

/-! ## C2: the puzzle pair selection -/

/-- C2 amended: every pair the sampling loop itself accepts is distinct,
not directly connected, and has a shortest path of length 3 to 6; only the
budget-exhausted fallback can return a directly connected pair (see the
counterexample). -/
theorem c2_sampled_pair_not_connected (connections : List Conn)
    (peopleArray : List String) (rand : Nat → Nat × Nat) (budget i : Nat)
    (s t : String)
    (h : selectPairLoop connections peopleArray rand budget i = some (s, t)) :
    s ≠ t ∧ areDirectlyConnected connections s t = false ∧
    ∃ p, findShortestPath connections s t = some p ∧ 3 ≤ p.length ∧ p.length ≤ 6 := by
  induction budget generalizing i with
  | zero => exact Option.noConfusion h
  | succ b ih =>
    unfold selectPairLoop at h
    split at h
    next hcond =>
      split at h
      next path hpath =>
        split at h
        next hlen =>
          injection h with hpair
          injection hpair with hs ht
          subst hs
          subst ht
          rw [Bool.and_eq_true] at hcond
          obtain ⟨hne, hnc⟩ := hcond
          rw [Bool.not_eq_true'] at hnc
          exact ⟨bne_iff_ne.mp hne, hnc, path, hpath, hlen.1, hlen.2⟩
        next hlen =>
          exact ih (i + 1) h
      next hpath =>
        exact ih (i + 1) h
    next hcond =>
      exact ih (i + 1) h

/-- Witness for the amended C2: with index stream constantly `(0, 3)` the
first sampled pair on `A—B—C—D` is `(A, D)`, which the loop accepts; the
theorem then certifies it is distinct, not adjacent, with a shortest path
of length 4. -/
theorem c2_witness :
    ("A" : String) ≠ "D" ∧ areDirectlyConnected demoConns "A" "D" = false ∧
    ∃ p, findShortestPath demoConns "A" "D" = some p ∧ 3 ≤ p.length ∧ p.length ≤ 6 :=
  c2_sampled_pair_not_connected demoConns (allPeopleList demoConns)
    (fun _ => (0, 3)) 100 0 "A" "D" (by decide)

/-- C2 counterexample: on `A—B—C—D` the qualifying pair `(A, D)` exists
(distinct, not directly connected, shortest path of length 4 within
`[3, 6]`), the in-bounds index stream that always draws `(0, 0)` makes all
100 sampling iterations fail, and the fallback then returns the first two
people `(A, B)` in enumeration order — a directly connected pair.  So the
pair selection including its fallback does not guarantee a non-adjacent
pair even when a qualifying pair exists. -/
theorem c2_counterexample :
    (("A" : String) ≠ "D" ∧ areDirectlyConnected demoConns "A" "D" = false ∧
      findShortestPath demoConns "A" "D" = some ["A", "B", "C", "D"]) ∧
    (∀ i : Nat, ((fun _ : Nat => ((0 : Nat), (0 : Nat))) i).1 <
        (allPeopleList demoConns).length ∧
      ((fun _ : Nat => ((0 : Nat), (0 : Nat))) i).2 <
        (allPeopleList demoConns).length) ∧
    startNewGamePair demoConns (fun _ => (0, 0)) = some ("A", "B") ∧
    areDirectlyConnected demoConns "A" "B" = true := by
  refine ⟨by decide, fun i => ⟨?_, ?_⟩, by decide, by decide⟩ <;>
    · show (0 : Nat) < (allPeopleList demoConns).length
      decide

end Kisser
